import Mathlib

/-!
Shallow embedding of `src/queue.rs` (`MpScBytesQueue`), the fixed-capacity
multi-producer single-consumer byte-buffer ring queue, together with proofs
about its admission (`push`), snapshot (`get_buffers`) and drain (`advance`)
operations, observed sequentially (outside any in-progress call, as the spec's
invariants are phrased).

Modelling conventions:
* `bytes::Bytes` is its byte sequence (`List Nat`); `IoSlice` descriptors are
  likewise the referenced byte sequence, so "references the slot's buffer"
  becomes equality of contents.
* All atomic `u16` counters hold their numeric value; every store the Rust
  code performs through `u16` arithmetic is reduced `% 65536` exactly where
  the source wraps (`overflowing_add`, `fetch_add`, `fetch_sub`, `as u16`
  casts).  `usize` arithmetic (64-bit) is left exact.
* A Rust panic (`% 0` on the `queue_cap as u16` divisor) and the
  never-terminating publish spin (`while tail_done != tail_pending`) are the
  `none` cases of `push`; a returned `some` is a completed call.
* The scratch `io_slice_buf` area is modelled by the list of descriptors the
  session wrote (`get_buffers` fills exactly `len` entries); its `Mutex` is
  the `locked` flag passed to `get_buffers`.
* Slot reads `bytes_queue[i]` use `List.getD _ _ []`; all uses are in-range
  under the well-formedness predicate below.
-/

namespace TokioIoUtility

/-- A `bytes::Bytes` value, modelled as its byte sequence. -/
abbrev Bytes := List Nat

/-- State of `MpScBytesQueue` (queue.rs lines 10-29): the slot array and the
five `AtomicU16` counters. -/
structure MpScBytesQueue where
  bytes_queue : List Bytes
  head : Nat
  tail_pending : Nat
  tail_done : Nat
  free : Nat
  len : Nat
deriving DecidableEq

/-- `MpScBytesQueue::new(cap)` (queue.rs lines 35-49): `cap` empty slots,
all indices 0, `free = cap`, `len = 0`.  `cap` is the numeric value of the
`u16` argument. -/
def new (cap : Nat) : MpScBytesQueue :=
  { bytes_queue := List.replicate cap ([] : Bytes)
    head := 0
    tail_pending := 0
    tail_done := 0
    free := cap
    len := 0 }

/-- `MpScBytesQueue::capacity` (queue.rs lines 51-53). -/
def capacity (q : MpScBytesQueue) : Nat := q.bytes_queue.length

/-- Result of a completed `push` call: `success` carries the post state;
`rejected` carries the post state and the returned (original) slice
(`Err(slice)`). -/
inductive PushOutcome where
  | success (q : MpScBytesQueue)
  | rejected (q : MpScBytesQueue) (ret : List Bytes)
deriving DecidableEq

/-- The slot-writing loop of `push` (queue.rs lines 106-112): write each
buffer of the slice in order starting at index `i`, stepping `(i+1) % cap`
(`usize` arithmetic). -/
def writeSlots (slots : List Bytes) (i cap : Nat) : List Bytes → List Bytes
  | [] => slots
  | b :: rest => writeSlots (slots.set i b) ((i + 1) % cap) cap rest

/-- `MpScBytesQueue::push` (queue.rs lines 58-122), sequential semantics.
Guards in source order: the capacity check, the `free` compare-and-retry
(which sequentially succeeds on the first exchange), the `tail_pending`
update whose `% (queue_cap as u16)` divides by zero when
`queue_cap % 65536 = 0` (modelled `none`), the slot writes, the publish
spin `while tail_done != tail_pending` (which sequentially never terminates
unless they are already equal: modelled `none`), the `tail_done` store and
the wrapping `len` increment. -/
def push (q : MpScBytesQueue) (slice : List Bytes) : Option PushOutcome :=
  let queue_cap := q.bytes_queue.length
  if slice.length > queue_cap then some (.rejected q slice)
  else
    let slice_len := slice.length % 65536
    if q.free < slice_len then some (.rejected q slice)
    else if queue_cap % 65536 = 0 then none
    else
      let new_tail_pending := ((q.tail_pending + slice_len) % 65536) % (queue_cap % 65536)
      if q.tail_done ≠ q.tail_pending then none
      else some (.success
        { bytes_queue := writeSlots q.bytes_queue q.tail_pending queue_cap slice
          head := q.head
          tail_pending := new_tail_pending
          tail_done := new_tail_pending
          free := q.free - slice_len
          len := (q.len + slice_len) % 65536 })

/-- State of a `Buffers` session (queue.rs lines 164-173): the descriptors
written into the scratch area, the live window `[io_slice_start,
io_slice_end)`, and the session's `head`/`tail` snapshot. -/
structure Buffers where
  io_slices : List Bytes
  io_slice_start : Nat
  io_slice_end : Nat
  head : Nat
  tail : Nat
deriving DecidableEq

/-- The descriptor-collecting loop of `get_buffers` (queue.rs lines 145-149):
`k` descriptors starting at slot `j`, stepping `(j+1) % cap`. -/
def collectSlices (slots : List Bytes) (cap : Nat) : Nat → Nat → List Bytes
  | _, 0 => []
  | j, k + 1 => slots.getD j [] :: collectSlices slots cap ((j + 1) % cap) k

/-- `MpScBytesQueue::get_buffers` (queue.rs lines 128-161).  `locked` is true
when another session holds the `io_slice_buf` mutex (`try_lock` fails). -/
def get_buffers (q : MpScBytesQueue) (locked : Bool) : Option Buffers :=
  let queue_cap := q.bytes_queue.length % 65536
  if locked then none
  else if q.len = 0 then none
  else some
    { io_slices := collectSlices q.bytes_queue queue_cap q.head q.len
      io_slice_start := 0
      io_slice_end := q.len
      head := q.head
      tail := q.tail_done }

/-- `Buffers::get_io_slices` (queue.rs lines 176-183): the live descriptor
window `[io_slice_start, io_slice_end)`. -/
def get_io_slices (b : Buffers) : List Bytes :=
  (b.io_slices.take b.io_slice_end).drop b.io_slice_start

/-- One iteration of `advance`'s retire loop body (queue.rs lines 213-228):
shrink the window, reset the slot at the session's `head`, wrapping-decrement
`len`, advance `head` (`overflowing_add` then `% (capacity as u16)`), store
it back, wrapping-increment `free`. -/
def retireStep (q : MpScBytesQueue) (b : Buffers) : MpScBytesQueue × Buffers :=
  let queue_cap := q.bytes_queue.length % 65536
  let head1 := ((b.head + 1) % 65536) % queue_cap
  ({ q with
      bytes_queue := q.bytes_queue.set b.head ([] : Bytes)
      len := (q.len + 65535) % 65536
      head := head1
      free := (q.free + 1) % 65536 },
   { b with
      io_slice_start := (b.io_slice_start + 1) % 65536
      head := head1 })

/-- The partial-consumption tail of `advance` (queue.rs lines 240-244):
`Bytes::advance(n)` drops the consumed prefix of the slot at the session's
`head` in place, and the front descriptor is rebuilt from the trimmed
buffer. -/
def trimStep (q : MpScBytesQueue) (b : Buffers) (n : Nat) : MpScBytesQueue × Buffers :=
  let bytes := (q.bytes_queue.getD b.head []).drop n
  ({ q with bytes_queue := q.bytes_queue.set b.head bytes },
   { b with io_slices := b.io_slices.set b.io_slice_start bytes })

/-- The `while bufs[0].len() <= n` loop of `advance` (queue.rs lines
213-244).  The fuel argument is the size `io_slice_end - io_slice_start` of
the live window, which bounds the number of iterations; the source-order
exits (`bufs.is_empty()` then `n == 0`) are reproduced. -/
def advanceGo : Nat → MpScBytesQueue → Buffers → Nat → MpScBytesQueue × Buffers × Bool
  | 0, q, b, _ => (q, b, false)
  | k + 1, q, b, n =>
    if (b.io_slices.getD b.io_slice_start []).length ≤ n then
      let n1 := n - (b.io_slices.getD b.io_slice_start []).length
      let p := retireStep q b
      if p.2.io_slice_end ≤ p.2.io_slice_start then (p.1, p.2, false)
      else if n1 = 0 then (p.1, p.2, true)
      else advanceGo k p.1 p.2 n1
    else
      ((trimStep q b n).1, (trimStep q b n).2, true)

/-- `Buffers::advance` (queue.rs lines 196-245).  `n` is the `NonZeroUsize`
byte count; the initial `bufs.is_empty()` early exit precedes the loop. -/
def advance (q : MpScBytesQueue) (b : Buffers) (n : Nat) : MpScBytesQueue × Buffers × Bool :=
  if b.io_slice_end ≤ b.io_slice_start then (q, b, false)
  else advanceGo (b.io_slice_end - b.io_slice_start) q b n

/-- Total byte length of the descriptor window of length `k` starting at
position `s` of the scratch area. -/
def descTotalAux (l : List Bytes) : Nat → Nat → Nat
  | _, 0 => 0
  | s, k + 1 => (l.getD s []).length + descTotalAux l (s + 1) k

/-- Total byte length of a session's remaining descriptors. -/
def descTotal (b : Buffers) : Nat :=
  descTotalAux b.io_slices b.io_slice_start (b.io_slice_end - b.io_slice_start)

/-- The spec's two observable queue invariants (§3 / §8):
`free + len = capacity` and `(head + len) ≡ tail_done (mod capacity)`. -/
def Inv (q : MpScBytesQueue) : Prop :=
  q.free + q.len = capacity q ∧
  (q.head + q.len) % capacity q = q.tail_done % capacity q

/-- Well-formed observable queue states: every state reachable through
completed sequential `new`/`push`/`advance` calls satisfies this.  It
bundles the `u16` range facts (capacity comes from a `u16` constructor
argument, indices are reduced modulo it), the quiescence of the publish
protocol (`tail_pending = tail_done` outside an in-progress `push`), and
the spec's invariants. -/
def WF (q : MpScBytesQueue) : Prop :=
  1 ≤ capacity q ∧ capacity q ≤ 65535 ∧
  q.head < capacity q ∧ q.tail_pending < capacity q ∧ q.tail_done < capacity q ∧
  q.tail_pending = q.tail_done ∧
  q.len ≤ capacity q ∧
  q.free + q.len = capacity q ∧
  (q.head + q.len) % capacity q = q.tail_done

/-- Well-formed session states relative to the queue: the live window is
within the scratch area and no larger than the committed run, the session's
`head` mirrors the queue's, the window ends at the `tail` snapshot in ring
order, and each descriptor equals the slot it was built from. -/
def BWF (q : MpScBytesQueue) (b : Buffers) : Prop :=
  b.io_slice_start ≤ b.io_slice_end ∧
  b.io_slice_end ≤ 65535 ∧
  b.io_slice_end ≤ b.io_slices.length ∧
  b.io_slice_end - b.io_slice_start ≤ q.len ∧
  b.head = q.head ∧
  b.tail < capacity q ∧
  (b.head + (b.io_slice_end - b.io_slice_start)) % capacity q = b.tail % capacity q ∧
  (∀ i, i < b.io_slice_end - b.io_slice_start →
    b.io_slices.getD (b.io_slice_start + i) [] =
      q.bytes_queue.getD ((b.head + i) % capacity q) [])

/-- A reachable state of a capacity-65535 queue in which `tail_pending =
tail_done = head = 65534` and the queue is empty.  Starting from `new 65535`
it is reached by pushing 32768 buffers, draining them, pushing 32766
buffers and draining those (each intermediate `tail_pending` step stays
below 65536, so no `u16` overflow occurs on the way). -/
def qOverflow : MpScBytesQueue :=
  { bytes_queue := List.replicate 65535 ([] : Bytes)
    head := 65534
    tail_pending := 65534
    tail_done := 65534
    free := 65535
    len := 0 }

/-- The state produced by `push qOverflow [[1], [2]]`: the `u16` sum
`65534 + 2` overflows to `0` before the `% 65535` reduction, so the stored
`tail_pending`/`tail_done` is `0` although the slot walk ends at index `1`. -/
def qOverflowPost : MpScBytesQueue :=
  { bytes_queue := writeSlots qOverflow.bytes_queue qOverflow.tail_pending
      (capacity qOverflow) [[1], [2]]
    head := qOverflow.head
    tail_pending := 0
    tail_done := 0
    free := 65533
    len := 2 }

/-- A full capacity-2 queue holding the buffers `[5]` and `[6]`. -/
def qPair : MpScBytesQueue :=
  { bytes_queue := [[5], [6]], head := 0, tail_pending := 0, tail_done := 0
    free := 0, len := 2 }

/-- The session snapshot of `qPair`. -/
def bPair : Buffers :=
  { io_slices := [[5], [6]], io_slice_start := 0, io_slice_end := 2, head := 0, tail := 0 }

/-- A full capacity-2 queue whose second committed buffer is empty. -/
def qEmptyDesc : MpScBytesQueue :=
  { bytes_queue := [[7], []], head := 0, tail_pending := 0, tail_done := 0
    free := 0, len := 2 }

/-- The session snapshot of `qEmptyDesc`: its trailing descriptor has
length zero. -/
def bEmptyDesc : Buffers :=
  { io_slices := [[7], []], io_slice_start := 0, io_slice_end := 2, head := 0, tail := 0 }

/-- A capacity-1 queue holding the single 3-byte buffer `[1, 2, 3]`. -/
def qTrim : MpScBytesQueue :=
  { bytes_queue := [[1, 2, 3]], head := 0, tail_pending := 0, tail_done := 0
    free := 0, len := 1 }

/-- The session snapshot of `qTrim`. -/
def bTrim : Buffers :=
  { io_slices := [[1, 2, 3]], io_slice_start := 0, io_slice_end := 1, head := 0, tail := 0 }

/-- An exhausted session window (`io_slice_start = io_slice_end`). -/
def bDone : Buffers :=
  { io_slices := [[5]], io_slice_start := 1, io_slice_end := 1, head := 0, tail := 0 }

/-- The state `push (new 3) [[1], [2]]` produces. -/
def qW3post : MpScBytesQueue :=
  { bytes_queue := [[1], [2], []], head := 0, tail_pending := 2, tail_done := 2
    free := 1, len := 2 }

instance (q : MpScBytesQueue) : Decidable (Inv q) := by
  unfold Inv; infer_instance

instance (q : MpScBytesQueue) : Decidable (WF q) := by
  unfold WF; infer_instance

instance (q : MpScBytesQueue) (b : Buffers) : Decidable (BWF q b) := by
  unfold BWF; infer_instance

/-! ### Auxiliary lemmas -/

theorem writeSlots_length (l : List Bytes) : ∀ (slots : List Bytes) (i cap : Nat),
    (writeSlots slots i cap l).length = slots.length := by
  induction l with
  | nil => intro slots i cap; rfl
  | cons b rest ih => intro slots i cap; simp [writeSlots, ih, List.length_set]

theorem collectSlices_length (slots : List Bytes) (cap : Nat) :
    ∀ (k j : Nat), (collectSlices slots cap j k).length = k := by
  intro k
  induction k with
  | zero => intro j; rfl
  | succ k ih => intro j; simp [collectSlices, ih]

theorem collectSlices_getD (slots : List Bytes) (cap : Nat) (hc : 0 < cap) :
    ∀ (k j i : Nat), j < cap → i < k →
      (collectSlices slots cap j k).getD i [] = slots.getD ((j + i) % cap) [] := by
  intro k
  induction k with
  | zero => intro j i _ hi; omega
  | succ k ih =>
    intro j i hj hi
    cases i with
    | zero =>
      simp only [collectSlices, List.getD_cons_zero]
      rw [Nat.add_zero, Nat.mod_eq_of_lt hj]
    | succ i =>
      have step : (collectSlices slots cap j (k + 1)).getD (i + 1) [] =
          (collectSlices slots cap ((j + 1) % cap) k).getD i [] := by
        simp [collectSlices]
      rw [step, ih ((j + 1) % cap) i (Nat.mod_lt _ hc) (by omega), Nat.mod_add_mod]
      have harg : j + 1 + i = j + (i + 1) := by omega
      rw [harg]

theorem getD_set_self (l : List Bytes) (i : Nat) (a : Bytes) (h : i < l.length) :
    (l.set i a).getD i [] = a := by
  rw [List.getD_eq_getElem?_getD, List.getElem?_set_eq_of_lt a h]; rfl

theorem getD_set_ne (l : List Bytes) (i j : Nat) (a : Bytes) (h : i ≠ j) :
    (l.set i a).getD j [] = l.getD j [] := by
  rw [List.getD_eq_getElem?_getD, List.getElem?_set_ne h, ← List.getD_eq_getElem?_getD]

theorem mod_shift_ne (h m c : Nat) (hh : h < c) (hm0 : 0 < m) (hmc : m < c) :
    (h + m) % c ≠ h := by
  intro heq
  rcases Nat.lt_or_ge (h + m) c with hlt | hge
  · rw [Nat.mod_eq_of_lt hlt] at heq; omega
  · rw [Nat.mod_eq_sub_mod hge, Nat.mod_eq_of_lt (by omega)] at heq; omega

theorem descTotalAux_last (l : List Bytes) :
    ∀ (k s : Nat), 1 ≤ k → (l.getD (s + k - 1) []).length ≤ descTotalAux l s k := by
  intro k
  induction k with
  | zero => intro s h; omega
  | succ k ih =>
    intro s _
    rcases Nat.eq_zero_or_pos k with hk | hk
    · subst hk; simp [descTotalAux]
    · have : s + (k + 1) - 1 = (s + 1) + k - 1 := by omega
      rw [this]
      calc (l.getD ((s + 1) + k - 1) []).length
          ≤ descTotalAux l (s + 1) k := ih (s + 1) hk
        _ ≤ descTotalAux l s (k + 1) := by simp [descTotalAux]

theorem WF_Inv (q : MpScBytesQueue) (h : WF q) : Inv q := by
  obtain ⟨h1, h2, h3, h4, h5, h6, h7, h8, h9⟩ := h
  exact ⟨h8, by rw [h9, Nat.mod_eq_of_lt h5]⟩

/-! ### Lemmas about `push` -/

theorem push_rejected_eq (q : MpScBytesQueue) (s : List Bytes) (q' : MpScBytesQueue)
    (r : List Bytes) (h : push q s = some (PushOutcome.rejected q' r)) :
    q' = q ∧ r = s := by
  simp only [push] at h
  split at h
  · simp only [Option.some.injEq, PushOutcome.rejected.injEq] at h
    exact ⟨h.1.symm, h.2.symm⟩
  · split at h
    · simp only [Option.some.injEq, PushOutcome.rejected.injEq] at h
      exact ⟨h.1.symm, h.2.symm⟩
    · split at h
      · exact absurd h (by simp)
      · split at h
        · exact absurd h (by simp)
        · simp at h

theorem push_success_spec (q : MpScBytesQueue) (s : List Bytes) (q' : MpScBytesQueue)
    (h : push q s = some (PushOutcome.success q')) :
    s.length ≤ capacity q ∧ s.length % 65536 ≤ q.free ∧ capacity q % 65536 ≠ 0 ∧
    q.tail_done = q.tail_pending ∧
    q' = { bytes_queue := writeSlots q.bytes_queue q.tail_pending (capacity q) s
           head := q.head
           tail_pending := ((q.tail_pending + s.length % 65536) % 65536) % (capacity q % 65536)
           tail_done := ((q.tail_pending + s.length % 65536) % 65536) % (capacity q % 65536)
           free := q.free - s.length % 65536
           len := (q.len + s.length % 65536) % 65536 } := by
  simp only [push] at h
  split at h
  · simp at h
  next h1 =>
    split at h
    · simp at h
    next h2 =>
      split at h
      · simp at h
      next h3 =>
        split at h
        · simp at h
        next h4 =>
          simp only [Option.some.injEq, PushOutcome.success.injEq] at h
          exact ⟨by simpa [capacity] using h1, by omega, by simpa [capacity] using h3,
            by omega, h.symm⟩

theorem push_eq_of_accepted (q : MpScBytesQueue) (s : List Bytes)
    (h1 : s.length ≤ capacity q) (h2 : s.length % 65536 ≤ q.free)
    (h3 : capacity q % 65536 ≠ 0) (h4 : q.tail_done = q.tail_pending) :
    push q s = some (PushOutcome.success
      { bytes_queue := writeSlots q.bytes_queue q.tail_pending (capacity q) s
        head := q.head
        tail_pending := ((q.tail_pending + s.length % 65536) % 65536) % (capacity q % 65536)
        tail_done := ((q.tail_pending + s.length % 65536) % 65536) % (capacity q % 65536)
        free := q.free - s.length % 65536
        len := (q.len + s.length % 65536) % 65536 }) := by
  simp only [push, capacity] at *
  rw [if_neg (by omega), if_neg (by omega), if_neg h3, if_neg (by omega)]

theorem push_success_wf (q : MpScBytesQueue) (s : List Bytes) (q' : MpScBytesQueue)
    (hwf : WF q) (hcap : capacity q ≤ 32768)
    (h : push q s = some (PushOutcome.success q')) : WF q' := by
  obtain ⟨w1, w2, w3, w4, w5, w6, w7, w8, w9⟩ := hwf
  obtain ⟨h1, h2, h3, h4, hq⟩ := push_success_spec q s q' h
  simp only [capacity] at w1 w2 w3 w4 w5 w7 w8 w9 hcap h1 h3
  have hsl : s.length % 65536 = s.length := Nat.mod_eq_of_lt (by omega)
  have hcm : q.bytes_queue.length % 65536 = q.bytes_queue.length := Nat.mod_eq_of_lt (by omega)
  have htp : (q.tail_pending + s.length % 65536) % 65536 = q.tail_pending + s.length := by
    rw [hsl]; exact Nat.mod_eq_of_lt (by omega)
  have hlen : (q.len + s.length % 65536) % 65536 = q.len + s.length := by
    rw [hsl]; exact Nat.mod_eq_of_lt (by omega)
  have hc' : capacity q' = q.bytes_queue.length := by
    rw [hq]; simp [capacity, writeSlots_length]
  have hhead : q'.head = q.head := by rw [hq]
  have htp' : q'.tail_pending = (q.tail_pending + s.length) % q.bytes_queue.length := by
    rw [hq]
    show ((q.tail_pending + s.length % 65536) % 65536) % (capacity q % 65536) = _
    simp only [capacity]
    rw [htp, hcm]
  have htd' : q'.tail_done = (q.tail_pending + s.length) % q.bytes_queue.length := by
    rw [hq]
    show ((q.tail_pending + s.length % 65536) % 65536) % (capacity q % 65536) = _
    simp only [capacity]
    rw [htp, hcm]
  have hfree' : q'.free = q.free - s.length := by
    rw [hq]; show q.free - s.length % 65536 = _; rw [hsl]
  have hlen' : q'.len = q.len + s.length := by
    rw [hq]; show (q.len + s.length % 65536) % 65536 = _; rw [hlen]
  unfold WF
  simp only [capacity]
  simp only [capacity] at hc'
  rw [hc', hhead, htp', htd', hfree', hlen']
  refine ⟨by omega, by omega, by omega, Nat.mod_lt _ (by omega), Nat.mod_lt _ (by omega),
    rfl, by omega, by omega, ?_⟩
  rw [← Nat.add_assoc, ← Nat.mod_add_mod, w9, h4]

theorem push_isSome (q : MpScBytesQueue) (s : List Bytes) (hwf : WF q) :
    (push q s).isSome := by
  obtain ⟨w1, w2, w3, w4, w5, w6, w7, w8, w9⟩ := hwf
  simp only [capacity] at w1 w2
  simp only [push]
  split
  · rfl
  · split
    · rfl
    · rw [if_neg (by omega), if_neg (by omega)]
      rfl

theorem push_rejected_iff (q : MpScBytesQueue) (s : List Bytes) (hwf : WF q) :
    (∃ r, push q s = some (PushOutcome.rejected q r)) ↔
      (capacity q < s.length ∨ q.free < s.length) := by
  obtain ⟨w1, w2, w3, w4, w5, w6, w7, w8, w9⟩ := hwf
  constructor
  · rintro ⟨r, hr⟩
    simp only [push] at hr
    split at hr
    next hc => exact Or.inl (by simpa [capacity] using hc)
    next hc =>
      split at hr
      next hf =>
        refine Or.inr ?_
        have hsl : s.length % 65536 = s.length :=
          Nat.mod_eq_of_lt (by simp only [capacity] at *; omega)
        omega
      next hf =>
        split at hr
        · simp at hr
        · split at hr
          · simp at hr
          · simp at hr
  · intro hcond
    simp only [push]
    rcases Nat.lt_or_ge (capacity q) s.length with hc | hc
    · rw [if_pos (by simpa [capacity] using hc)]
      exact ⟨s, rfl⟩
    · have hsl : s.length % 65536 = s.length :=
        Nat.mod_eq_of_lt (by simp only [capacity] at *; omega)
      rw [if_neg (by simp only [capacity] at *; omega), if_pos (by simp only [capacity] at *; omega)]
      exact ⟨s, rfl⟩

/-! ### Lemmas about `advance` -/

theorem retireStep_spec (q : MpScBytesQueue) (b : Buffers)
    (hwf : WF q) (hb : BWF q b) (hne : b.io_slice_start < b.io_slice_end) :
    WF (retireStep q b).1 ∧ BWF (retireStep q b).1 (retireStep q b).2 ∧
    (retireStep q b).1.len = q.len - 1 ∧
    (retireStep q b).1.free = q.free + 1 ∧
    (retireStep q b).1.head = (b.head + 1) % capacity q ∧
    (retireStep q b).2.head = (retireStep q b).1.head ∧
    (retireStep q b).2.io_slice_start = b.io_slice_start + 1 ∧
    (retireStep q b).2.io_slice_end = b.io_slice_end ∧
    (retireStep q b).2.io_slices = b.io_slices ∧
    (retireStep q b).2.tail = b.tail ∧
    (retireStep q b).1.tail_done = q.tail_done ∧
    (retireStep q b).1.tail_pending = q.tail_pending ∧
    capacity (retireStep q b).1 = capacity q ∧
    (retireStep q b).1.bytes_queue = q.bytes_queue.set b.head [] := by
  obtain ⟨w1, w2, w3, w4, w5, w6, w7, w8, w9⟩ := hwf
  obtain ⟨b1, b2, b3, b4, b5, b6, b7, b8⟩ := hb
  simp only [capacity] at w1 w2 w3 w4 w5 w7 w8 w9 b6 b7 b8 ⊢
  have hlen1 : 1 ≤ q.len := by omega
  have hcm : q.bytes_queue.length % 65536 = q.bytes_queue.length := Nat.mod_eq_of_lt (by omega)
  have hh1 : (b.head + 1) % 65536 = b.head + 1 := Nat.mod_eq_of_lt (by omega)
  have hst : (b.io_slice_start + 1) % 65536 = b.io_slice_start + 1 :=
    Nat.mod_eq_of_lt (by omega)
  have hlenw : (q.len + 65535) % 65536 = q.len - 1 := by
    have harg : q.len + 65535 = 65536 + (q.len - 1) := by omega
    rw [harg, Nat.add_mod_left]
    exact Nat.mod_eq_of_lt (by omega)
  have hfreew : (q.free + 1) % 65536 = q.free + 1 := Nat.mod_eq_of_lt (by omega)
  have hheadw : ((b.head + 1) % 65536) % (q.bytes_queue.length % 65536) =
      (b.head + 1) % q.bytes_queue.length := by rw [hh1, hcm]
  have hq1len : (retireStep q b).1.len = q.len - 1 := by
    show (q.len + 65535) % 65536 = _; rw [hlenw]
  have hq1free : (retireStep q b).1.free = q.free + 1 := by
    show (q.free + 1) % 65536 = _; rw [hfreew]
  have hq1head : (retireStep q b).1.head = (b.head + 1) % q.bytes_queue.length := by
    show ((b.head + 1) % 65536) % (q.bytes_queue.length % 65536) = _; rw [hheadw]
  have hb1start : (retireStep q b).2.io_slice_start = b.io_slice_start + 1 := by
    show (b.io_slice_start + 1) % 65536 = _; rw [hst]
  have hb1head : (retireStep q b).2.head = (retireStep q b).1.head := rfl
  have hq1cap : capacity (retireStep q b).1 = q.bytes_queue.length := by
    show (q.bytes_queue.set b.head []).length = _
    rw [List.length_set]
  have hwf1 : WF (retireStep q b).1 := by
    unfold WF
    simp only [capacity] at hq1cap ⊢
    rw [hq1cap, hq1len, hq1free, hq1head]
    have ht1 : (retireStep q b).1.tail_pending = q.tail_pending := rfl
    have ht2 : (retireStep q b).1.tail_done = q.tail_done := rfl
    rw [ht1, ht2]
    refine ⟨by omega, by omega, Nat.mod_lt _ (by omega), by omega, by omega, by omega,
      by omega, by omega, ?_⟩
    rw [Nat.mod_add_mod]
    have harg : b.head + 1 + (q.len - 1) = q.head + q.len := by omega
    rw [harg, w9]
  have hbwf1 : BWF (retireStep q b).1 (retireStep q b).2 := by
    unfold BWF
    simp only [capacity] at hq1cap ⊢
    rw [hq1cap, hq1len, hb1start, hq1head]
    have he : (retireStep q b).2.io_slice_end = b.io_slice_end := rfl
    have hs : (retireStep q b).2.io_slices = b.io_slices := rfl
    have ht : (retireStep q b).2.tail = b.tail := rfl
    have hh : (retireStep q b).2.head = (b.head + 1) % q.bytes_queue.length := hq1head
    have hbq : (retireStep q b).1.bytes_queue = q.bytes_queue.set b.head [] := rfl
    rw [he, hs, ht, hh, hbq]
    refine ⟨by omega, by omega, by omega, by omega, rfl, by omega, ?_, ?_⟩
    · rw [Nat.mod_add_mod]
      have harg : b.head + 1 + (b.io_slice_end - (b.io_slice_start + 1)) =
          b.head + (b.io_slice_end - b.io_slice_start) := by omega
      rw [harg, b7]
    · intro i hi
      have hcorr := b8 (1 + i) (by omega)
      have harg : b.io_slice_start + (1 + i) = b.io_slice_start + 1 + i := by omega
      rw [harg] at hcorr
      rw [hcorr, Nat.mod_add_mod]
      have harg2 : b.head + 1 + i = b.head + (1 + i) := by omega
      rw [harg2]
      refine (getD_set_ne _ _ _ _ ?_).symm.trans rfl
      intro heq
      exact mod_shift_ne b.head (1 + i) q.bytes_queue.length (by omega) (by omega)
        (by omega) heq.symm
  exact ⟨hwf1, hbwf1, hq1len, hq1free, hq1head, rfl, hb1start, rfl, rfl, rfl,
    rfl, rfl, hq1cap, rfl⟩

theorem trimStep_spec (q : MpScBytesQueue) (b : Buffers) (n : Nat)
    (hwf : WF q) (hb : BWF q b) (hne : b.io_slice_start < b.io_slice_end) :
    WF (trimStep q b n).1 ∧ BWF (trimStep q b n).1 (trimStep q b n).2 ∧
    (trimStep q b n).1.free = q.free ∧
    (trimStep q b n).1.len = q.len ∧
    (trimStep q b n).1.head = q.head ∧
    (trimStep q b n).2.io_slice_start = b.io_slice_start ∧
    (trimStep q b n).2.io_slice_end = b.io_slice_end ∧
    (trimStep q b n).2.io_slices.getD b.io_slice_start [] =
      (q.bytes_queue.getD b.head []).drop n ∧
    (trimStep q b n).1.bytes_queue.getD b.head [] =
      (q.bytes_queue.getD b.head []).drop n := by
  obtain ⟨w1, w2, w3, w4, w5, w6, w7, w8, w9⟩ := hwf
  obtain ⟨b1, b2, b3, b4, b5, b6, b7, b8⟩ := hb
  simp only [capacity] at w1 w2 w3 w4 w5 w7 w8 w9 b6 b7 b8 ⊢
  have hq2 : (trimStep q b n).1.bytes_queue =
      q.bytes_queue.set b.head ((q.bytes_queue.getD b.head []).drop n) := rfl
  have hb2 : (trimStep q b n).2.io_slices =
      b.io_slices.set b.io_slice_start ((q.bytes_queue.getD b.head []).drop n) := rfl
  have hcap2 : (trimStep q b n).1.bytes_queue.length = q.bytes_queue.length := by
    rw [hq2, List.length_set]
  have hslot : (trimStep q b n).1.bytes_queue.getD b.head [] =
      (q.bytes_queue.getD b.head []).drop n := by
    rw [hq2]; exact getD_set_self _ _ _ (by omega)
  have hdesc : (trimStep q b n).2.io_slices.getD b.io_slice_start [] =
      (q.bytes_queue.getD b.head []).drop n := by
    rw [hb2]; exact getD_set_self _ _ _ (by omega)
  refine ⟨?_, ?_, rfl, rfl, rfl, rfl, rfl, hdesc, hslot⟩
  · unfold WF
    simp only [capacity]
    rw [hcap2]
    exact ⟨w1, w2, w3, w4, w5, w6, w7, w8, w9⟩
  · unfold BWF
    simp only [capacity]
    rw [hcap2]
    have hbs : (trimStep q b n).2.io_slice_start = b.io_slice_start := rfl
    have hbe : (trimStep q b n).2.io_slice_end = b.io_slice_end := rfl
    have hbh : (trimStep q b n).2.head = b.head := rfl
    have hbt : (trimStep q b n).2.tail = b.tail := rfl
    have hqh : (trimStep q b n).1.head = q.head := rfl
    rw [hbs, hbe, hbh, hbt, hqh]
    refine ⟨b1, b2, ?_, b4, b5, b6, b7, ?_⟩
    · rw [hb2, List.length_set]; exact b3
    · intro i hi
      rcases Nat.eq_zero_or_pos i with hi0 | hip
      · subst hi0
        simp only [Nat.add_zero]
        have hmod : b.head % q.bytes_queue.length = b.head := Nat.mod_eq_of_lt (by omega)
        rw [hmod, hdesc, hslot]
      · have hd2 : (trimStep q b n).2.io_slices.getD (b.io_slice_start + i) [] =
            b.io_slices.getD (b.io_slice_start + i) [] := by
          rw [hb2]; exact getD_set_ne _ _ _ _ (by omega)
        have hs2 : (trimStep q b n).1.bytes_queue.getD ((b.head + i) % q.bytes_queue.length) [] =
            q.bytes_queue.getD ((b.head + i) % q.bytes_queue.length) [] := by
          rw [hq2]
          refine getD_set_ne _ _ _ _ ?_
          intro heq
          exact mod_shift_ne b.head i q.bytes_queue.length (by omega) hip (by omega) heq.symm
        rw [hd2, hs2]
        exact b8 i hi

theorem advanceGo_wf : ∀ (k : Nat) (q : MpScBytesQueue) (b : Buffers) (n : Nat),
    WF q → BWF q b → b.io_slice_end - b.io_slice_start = k →
    WF (advanceGo k q b n).1 ∧ BWF (advanceGo k q b n).1 (advanceGo k q b n).2.1 := by
  intro k
  induction k with
  | zero =>
    intro q b n hwf hb _
    exact ⟨hwf, hb⟩
  | succ k ih =>
    intro q b n hwf hb hk
    have hne : b.io_slice_start < b.io_slice_end := by omega
    obtain ⟨hwf1, hbwf1, hq1len, hq1free, hq1head, hb1head, hb1start, hb1end, hb1slices,
      hb1tail, hq1td, hq1tp, hq1cap, hq1bytes⟩ := retireStep_spec q b hwf hb hne
    by_cases hcond : (b.io_slices.getD b.io_slice_start []).length ≤ n
    · simp only [advanceGo]
      rw [if_pos hcond]
      split
      · exact ⟨hwf1, hbwf1⟩
      · split
        · exact ⟨hwf1, hbwf1⟩
        · exact ih (retireStep q b).1 (retireStep q b).2 _ hwf1 hbwf1 (by omega)
    · simp only [advanceGo]
      rw [if_neg hcond]
      obtain ⟨t1, t2, _⟩ := trimStep_spec q b n hwf hb hne
      exact ⟨t1, t2⟩

theorem advance_wf (q : MpScBytesQueue) (b : Buffers) (n : Nat)
    (hwf : WF q) (hb : BWF q b) :
    WF (advance q b n).1 ∧ BWF (advance q b n).1 (advance q b n).2.1 := by
  unfold advance
  split
  · exact ⟨hwf, hb⟩
  · exact advanceGo_wf _ q b n hwf hb rfl

theorem advanceGo_drain : ∀ (k : Nat) (q : MpScBytesQueue) (b : Buffers),
    WF q → BWF q b → b.io_slice_end - b.io_slice_start = k → 1 ≤ k →
    1 ≤ (b.io_slices.getD (b.io_slice_end - 1) []).length →
    ∀ n, n = descTotalAux b.io_slices b.io_slice_start k →
    (advanceGo k q b n).2.2 = false ∧
    (advanceGo k q b n).1.head = b.tail ∧
    (advanceGo k q b n).1.len = q.len - k ∧
    (advanceGo k q b n).1.free = q.free + k ∧
    (advanceGo k q b n).2.1.io_slice_start = b.io_slice_end ∧
    (∀ i, i < k →
      (advanceGo k q b n).1.bytes_queue.getD ((b.head + i) % capacity q) [] = []) ∧
    (∀ j, j < capacity q → (∀ i, i < k → j ≠ (b.head + i) % capacity q) →
      (advanceGo k q b n).1.bytes_queue.getD j [] = q.bytes_queue.getD j []) := by
  intro k
  induction k with
  | zero => intro q b _ _ _ hk1; omega
  | succ k ih =>
    intro q b hwf hb hk _ hlast n hn
    have hne : b.io_slice_start < b.io_slice_end := by omega
    obtain ⟨hwf1, hbwf1, hq1len, hq1free, hq1head, hb1head, hb1start, hb1end, hb1slices,
      hb1tail, hq1td, hq1tp, hq1cap, hq1bytes⟩ := retireStep_spec q b hwf hb hne
    have hcapdef : q.bytes_queue.length = capacity q := rfl
    obtain ⟨w1, w2, w3, w4, w5, w6, w7, w8, w9⟩ := hwf
    obtain ⟨b1, b2, b3, b4, b5, b6, b7, b8⟩ := hb
    have hnsplit : descTotalAux b.io_slices b.io_slice_start (k + 1) =
        (b.io_slices.getD b.io_slice_start []).length +
          descTotalAux b.io_slices (b.io_slice_start + 1) k := rfl
    have hcond : (b.io_slices.getD b.io_slice_start []).length ≤ n := by
      rw [hn, hnsplit]; omega
    have hpos0 : (b.head + 0) % capacity q = b.head := by
      rw [Nat.add_zero]; exact Nat.mod_eq_of_lt (by omega)
    rcases Nat.eq_zero_or_pos k with hk0 | hkpos
    · -- single remaining descriptor: the retire empties the window
      subst hk0
      simp only [advanceGo]
      rw [if_pos hcond, if_pos (show (retireStep q b).2.io_slice_end ≤
        (retireStep q b).2.io_slice_start by omega)]
      refine ⟨rfl, ?_, ?_, ?_, ?_, ?_, ?_⟩
      · rw [hq1head]
        have h7 : (b.head + 1) % capacity q = b.tail % capacity q := by
          rw [show b.head + 1 = b.head + (b.io_slice_end - b.io_slice_start) from by omega]
          exact b7
        rw [h7]
        exact Nat.mod_eq_of_lt b6
      · rw [hq1len]
      · rw [hq1free]
      · rw [hb1start]; omega
      · intro i hi
        have hi0 : i = 0 := by omega
        subst hi0
        rw [hpos0, hq1bytes]
        exact getD_set_self _ _ _ (by omega)
      · intro j hj hav
        have hav0 := hav 0 (by omega)
        rw [hpos0] at hav0
        rw [hq1bytes]
        exact getD_set_ne _ _ _ _ (Ne.symm hav0)
    · -- at least two remaining descriptors: recurse
      have hn1 : n - (b.io_slices.getD b.io_slice_start []).length =
          descTotalAux b.io_slices (b.io_slice_start + 1) k := by
        rw [hn, hnsplit]; omega
      have hlast2 : (b.io_slices.getD (b.io_slice_start + 1 + k - 1) []).length ≤
          descTotalAux b.io_slices (b.io_slice_start + 1) k :=
        descTotalAux_last b.io_slices k (b.io_slice_start + 1) hkpos
      have hend1 : b.io_slice_start + 1 + k - 1 = b.io_slice_end - 1 := by omega
      rw [hend1] at hlast2
      have hn1pos : 1 ≤ n - (b.io_slices.getD b.io_slice_start []).length := by
        rw [hn1]; omega
      simp only [advanceGo]
      rw [if_pos hcond,
        if_neg (show ¬ ((retireStep q b).2.io_slice_end ≤
          (retireStep q b).2.io_slice_start) by omega),
        if_neg (show ¬ (n - (b.io_slices.getD b.io_slice_start []).length = 0) by omega)]
      obtain ⟨c1, c2, c3, c4, c5, c6, c7⟩ := ih (retireStep q b).1 (retireStep q b).2
        hwf1 hbwf1 (by omega) hkpos
        (by rw [hb1slices, hb1end]; exact hlast)
        (n - (b.io_slices.getD b.io_slice_start []).length)
        (by rw [hb1slices, hb1start]; exact hn1)
      have hshift : ∀ i' : Nat, ((b.head + 1) % capacity q + i') % capacity q =
          (b.head + (1 + i')) % capacity q := by
        intro i'
        rw [Nat.mod_add_mod, show b.head + 1 + i' = b.head + (1 + i') from by omega]
      have hc6 : ∀ i', i' < k →
          (advanceGo k (retireStep q b).1 (retireStep q b).2
            (n - (b.io_slices.getD b.io_slice_start []).length)).1.bytes_queue.getD
              ((b.head + (1 + i')) % capacity q) [] = [] := by
        intro i' hi'
        have hthis := c6 i' hi'
        rw [hq1cap, hb1head, hq1head, hshift] at hthis
        exact hthis
      have hc7 : ∀ j, j < capacity q →
          (∀ i', i' < k → j ≠ (b.head + (1 + i')) % capacity q) →
          (advanceGo k (retireStep q b).1 (retireStep q b).2
            (n - (b.io_slices.getD b.io_slice_start []).length)).1.bytes_queue.getD j [] =
          (retireStep q b).1.bytes_queue.getD j [] := by
        intro j hj hav
        refine c7 j (by rw [hq1cap]; exact hj) ?_
        intro i' hi'
        rw [hq1cap, hb1head, hq1head, hshift]
        exact hav i' hi'
      refine ⟨c1, ?_, ?_, ?_, ?_, ?_, ?_⟩
      · rw [c2, hb1tail]
      · rw [c3, hq1len]; omega
      · rw [c4, hq1free]; omega
      · rw [c5, hb1end]
      · intro i hi
        rcases Nat.eq_zero_or_pos i with hi0 | hip
        · subst hi0
          rw [hpos0]
          rw [hc7 b.head (by omega) ?_]
          · rw [hq1bytes]
            exact getD_set_self _ _ _ (by omega)
          · intro i' hi'
            refine Ne.symm (mod_shift_ne b.head (1 + i') (capacity q) (by omega)
              (by omega) (by omega))
        · have hthis := hc6 (i - 1) (by omega)
          rw [show b.head + (1 + (i - 1)) = b.head + i from by omega] at hthis
          exact hthis
      · intro j hj hav
        have hav0 := hav 0 (by omega)
        rw [hpos0] at hav0
        rw [hc7 j hj (fun i' hi' => hav (1 + i') (by omega))]
        rw [hq1bytes]
        exact getD_set_ne _ _ _ _ (Ne.symm hav0)

/-! ### Lemmas about `get_buffers` -/

theorem get_buffers_none_iff (q : MpScBytesQueue) (locked : Bool) :
    get_buffers q locked = none ↔ (locked = true ∨ q.len = 0) := by
  unfold get_buffers
  cases locked
  · by_cases hl : q.len = 0
    · simp [hl]
    · simp [hl]
  · simp

theorem get_buffers_some_spec (q : MpScBytesQueue) (locked : Bool) (b : Buffers)
    (hwf : WF q) (h : get_buffers q locked = some b) :
    b.io_slice_start = 0 ∧ b.io_slice_end = q.len ∧ b.head = q.head ∧
    b.tail = q.tail_done ∧ b.io_slices.length = q.len ∧
    (∀ i, i < q.len →
      b.io_slices.getD i [] = q.bytes_queue.getD ((q.head + i) % capacity q) []) ∧
    (q.head + q.len) % capacity q = q.tail_done := by
  obtain ⟨w1, w2, w3, w4, w5, w6, w7, w8, w9⟩ := hwf
  simp only [capacity] at w1 w2 w3 w9 ⊢
  unfold get_buffers at h
  split at h
  · exact absurd h (by simp)
  · split at h
    · exact absurd h (by simp)
    · simp only [Option.some.injEq] at h
      subst h
      have hcm : q.bytes_queue.length % 65536 = q.bytes_queue.length :=
        Nat.mod_eq_of_lt (by omega)
      refine ⟨rfl, rfl, rfl, rfl, ?_, ?_, w9⟩
      · show (collectSlices q.bytes_queue (q.bytes_queue.length % 65536) q.head q.len).length
            = q.len
        exact collectSlices_length _ _ _ _
      · intro i hi
        show (collectSlices q.bytes_queue (q.bytes_queue.length % 65536) q.head q.len).getD i []
            = q.bytes_queue.getD ((q.head + i) % q.bytes_queue.length) []
        rw [hcm]
        exact collectSlices_getD q.bytes_queue q.bytes_queue.length (by omega) q.len q.head i
          w3 hi

/-! ### The `u16` overflow in `push`'s `tail_pending` update -/

theorem qOverflow_cap : capacity qOverflow = 65535 := by
  show (List.replicate 65535 ([] : Bytes)).length = 65535
  exact List.length_replicate 65535 []

theorem qOverflow_wf : WF qOverflow := by
  unfold WF
  rw [qOverflow_cap]
  rw [show qOverflow.head = 65534 from rfl, show qOverflow.tail_pending = 65534 from rfl,
    show qOverflow.tail_done = 65534 from rfl, show qOverflow.free = 65535 from rfl,
    show qOverflow.len = 0 from rfl]
  norm_num

theorem push_qOverflow_eval :
    push qOverflow [[1], [2]] = some (PushOutcome.success qOverflowPost) := by
  have hl2 : ([[1], [2]] : List Bytes).length = 2 := rfl
  have e1 : (qOverflow.tail_pending + ([[1], [2]] : List Bytes).length % 65536) % 65536 %
      (capacity qOverflow % 65536) = 0 := by
    rw [qOverflow_cap, show qOverflow.tail_pending = 65534 from rfl, hl2]
  have e2 : qOverflow.free - ([[1], [2]] : List Bytes).length % 65536 = 65533 := by
    rw [show qOverflow.free = 65535 from rfl, hl2]
  have e3 : (qOverflow.len + ([[1], [2]] : List Bytes).length % 65536) % 65536 = 2 := by
    rw [show qOverflow.len = 0 from rfl, hl2]
  have h := push_eq_of_accepted qOverflow [[1], [2]]
    (by rw [qOverflow_cap, hl2]; norm_num)
    (by rw [show qOverflow.free = 65535 from rfl, hl2]; norm_num)
    (by rw [qOverflow_cap]; norm_num)
    rfl
  rw [e1, e2, e3] at h
  exact h

theorem qOverflowPost_cap : capacity qOverflowPost = 65535 := by
  unfold qOverflowPost capacity
  rw [writeSlots_length]
  exact qOverflow_cap

/-! ### Claim theorems -/

/-- C2: whenever `push` rejects a batch (batch longer than capacity, or
longer than the observed `free` count), it returns the original input slice
and leaves every part of the queue state unchanged — `free`, `len`, `head`,
`tail_pending`, `tail_done` and all slot contents are exactly as before the
call (both reject paths return before any store). -/
theorem push_rejected_frame (q : MpScBytesQueue) (s : List Bytes)
    (q2 : MpScBytesQueue) (r : List Bytes)
    (h : push q s = some (PushOutcome.rejected q2 r)) : q2 = q ∧ r = s :=
  push_rejected_eq q s q2 r h

/-- Witness for C2: the concrete rejected push of two buffers into a
capacity-1 queue leaves the queue state equal to `new 1` and returns the
original slice. -/
theorem push_rejected_frame_witness :
    (new 1) = (new 1) ∧ ([[1], [2]] : List Bytes) = [[1], [2]] :=
  push_rejected_frame (new 1) [[1], [2]] (new 1) [[1], [2]] (by decide)

/-- C3: on a well-formed queue state, `push slice` is rejected (returning
the untouched state and the original slice) exactly when the slice length
exceeds the capacity or exceeds the observed `free` counter; otherwise the
push completes successfully.  In particular a batch longer than capacity is
rejected even on an empty queue, where `free = capacity < slice.length`. -/
theorem push_reject_characterization (q : MpScBytesQueue) (s : List Bytes) (hwf : WF q) :
    ((∃ r, push q s = some (PushOutcome.rejected q r)) ↔
      (capacity q < s.length ∨ q.free < s.length)) ∧
    ((s.length ≤ capacity q ∧ s.length ≤ q.free) →
      ∃ q2, push q s = some (PushOutcome.success q2)) := by
  refine ⟨push_rejected_iff q s hwf, ?_⟩
  rintro ⟨h1, h2⟩
  obtain ⟨w1, w2, w3, w4, w5, w6, w7, w8, w9⟩ := hwf
  refine ⟨_, push_eq_of_accepted q s h1 ?_ ?_ w6.symm⟩
  · have hml : s.length % 65536 ≤ s.length := Nat.mod_le _ _
    omega
  · simp only [capacity] at w1 w2 ⊢
    omega

/-- Witness for C3 at a capacity-1 queue and a 2-buffer slice. -/
theorem push_reject_characterization_witness :
    ((∃ r, push (new 1) [[1], [2]] = some (PushOutcome.rejected (new 1) r)) ↔
      (capacity (new 1) < ([[1], [2]] : List Bytes).length ∨
        (new 1).free < ([[1], [2]] : List Bytes).length)) ∧
    ((([[1], [2]] : List Bytes).length ≤ capacity (new 1) ∧
        ([[1], [2]] : List Bytes).length ≤ (new 1).free) →
      ∃ q2, push (new 1) [[1], [2]] = some (PushOutcome.success q2)) :=
  push_reject_characterization (new 1) [[1], [2]] (by decide)

/-- C9: pushing an empty batch into any well-formed queue state always
succeeds and changes nothing: `free` is decremented by zero, the stored-back
`tail_pending` and `tail_done` equal their prior values, no slot is written
and `len` is incremented by zero, so the resulting state is the input state. -/
theorem push_empty_noop (q : MpScBytesQueue) (hwf : WF q) :
    push q [] = some (PushOutcome.success q) := by
  obtain ⟨bq, hd, tp, td, fr, ln⟩ := q
  obtain ⟨w1, w2, w3, w4, w5, w6, w7, w8, w9⟩ := hwf
  simp only [capacity] at w1 w2 w3 w4 w5 w7 w8 w9
  simp only at w6
  subst w6
  have h := push_eq_of_accepted ⟨bq, hd, tp, tp, fr, ln⟩ [] (by simp [capacity])
    (by simp) (by simp only [capacity]; omega) rfl
  simp only [capacity, List.length_nil, Nat.zero_mod, Nat.add_zero, Nat.sub_zero] at h
  rw [Nat.mod_eq_of_lt (show tp < 65536 by omega),
    Nat.mod_eq_of_lt (show bq.length < 65536 by omega),
    Nat.mod_eq_of_lt (show tp < bq.length by omega),
    Nat.mod_eq_of_lt (show ln < 65536 by omega)] at h
  exact h

/-- Witness for C9: an empty push on a fresh capacity-2 queue returns the
queue unchanged. -/
theorem push_empty_noop_witness :
    push (new 2) [] = some (PushOutcome.success (new 2)) :=
  push_empty_noop (new 2) (by decide)

/-- C8: `advance` on a session whose descriptor window is already exhausted
returns `false` and modifies nothing: the queue state and the session state
are returned exactly as they were. -/
theorem advance_exhausted (q : MpScBytesQueue) (b : Buffers) (n : Nat)
    (hempty : b.io_slice_end ≤ b.io_slice_start) (hn : 1 ≤ n) :
    advance q b n = (q, b, false) := by
  unfold advance
  rw [if_pos hempty]

/-- Witness for C8 on a concrete exhausted session. -/
theorem advance_exhausted_witness : advance qTrim bDone 5 = (qTrim, bDone, false) :=
  advance_exhausted qTrim bDone 5 (by decide) (by decide)

/-- C10: `new` accepts capacity 0 (the `u16` argument represents exactly
0..65535, and `capacity (new c) = c` for every such value); on well-formed
states — whose capacity is at least 1 and at most 65535, as produced by the
`u16` constructor argument — every `push` completes without dividing by
zero, whereas on the zero-capacity queue the first modulo of `push`
(`% (queue_cap as u16)` in the `tail_pending` update) divides by zero, which
the embedding models as `none`. -/
theorem push_totality_and_zero_capacity :
    capacity (new 0) = 0 ∧ (new 0).free = 0 ∧
    (∀ c : Nat, capacity (new c) = c) ∧
    (∀ q s, WF q → (push q s).isSome) ∧
    push (new 0) [] = none := by
  refine ⟨rfl, rfl, ?_, ?_, rfl⟩
  · intro c
    show (List.replicate c ([] : Bytes)).length = c
    exact List.length_replicate c []
  · exact fun q s hwf => push_isSome q s hwf

/-- Witness for C10's totality conjunct at a concrete well-formed queue. -/
theorem push_totality_witness : (push (new 2) [[9]]).isSome :=
  push_totality_and_zero_capacity.2.2.2.1 (new 2) [[9]] (by decide)

/-- C1 counterexample: on the reachable capacity-65535 state `qOverflow`
(tail indices at 65534, queue empty) both spec invariants hold, yet the
completed push of a 2-buffer batch yields `qOverflowPost`, which violates
`(head + len) % capacity = tail_done % capacity`: the `u16` sum
`65534 + 2` wraps to 0 before the `% capacity` reduction, so `tail_done`
is stored as 0 while the ring position of the write is 1.  The claim as
stated (all capacities up to 65535) is therefore false. -/
theorem push_overflow_breaks_invariant :
    Inv qOverflow ∧
    push qOverflow [[1], [2]] = some (PushOutcome.success qOverflowPost) ∧
    ¬ Inv qOverflowPost := by
  refine ⟨WF_Inv _ qOverflow_wf, push_qOverflow_eval, ?_⟩
  intro hinv
  obtain ⟨hA, hB⟩ := hinv
  rw [qOverflowPost_cap, show qOverflowPost.head = 65534 from rfl,
    show qOverflowPost.len = 2 from rfl, show qOverflowPost.tail_done = 0 from rfl] at hB
  norm_num at hB

/-- C1 (amended: capacities restricted to at most 32768, where the `u16`
sum `tail_pending + slice_len` cannot wrap): the invariants
`free + len = capacity` and `(head + len) % capacity = tail_done % capacity`
hold in the state `new c` produces and are preserved by every completed
`push` (successful pushes preserve full well-formedness; rejected pushes
return the state unchanged) and by every completed `advance` on a
well-formed session; `get_buffers` reads the state without modifying it by
construction. -/
theorem invariants_preserved :
    (∀ c : Nat, 1 ≤ c → Inv (new c)) ∧
    (∀ q s q2, WF q → capacity q ≤ 32768 →
      push q s = some (PushOutcome.success q2) → WF q2 ∧ Inv q2) ∧
    (∀ q s q2 r, Inv q → push q s = some (PushOutcome.rejected q2 r) → Inv q2) ∧
    (∀ q b n, WF q → BWF q b → WF (advance q b n).1 ∧ Inv (advance q b n).1) := by
  refine ⟨?_, ?_, ?_, ?_⟩
  · intro c hc
    constructor
    · show c + 0 = (List.replicate c ([] : Bytes)).length
      rw [List.length_replicate, Nat.add_zero]
    · rfl
  · intro q s q2 hwf hcap h
    have h2 := push_success_wf q s q2 hwf hcap h
    exact ⟨h2, WF_Inv _ h2⟩
  · intro q s q2 r hinv h
    rw [(push_rejected_eq q s q2 r h).1]
    exact hinv
  · intro q b n hwf hb
    have h2 := advance_wf q b n hwf hb
    exact ⟨h2.1, WF_Inv _ h2.1⟩

/-- Witness for C1's amended theorem: pushing two buffers into `new 3`
yields `qW3post`, which is well-formed and satisfies the invariants. -/
theorem invariants_preserved_witness : WF qW3post ∧ Inv qW3post :=
  invariants_preserved.2.1 (new 3) [[1], [2]] qW3post (by decide) (by decide) (by decide)

/-- C4 (code bug): on the reachable state `qOverflow` (capacity 65535,
`tail_pending = 65534`), a successful push of `k = 2` buffers stores
`tail_pending = ((65534 + 2) mod 2^16) mod 65535 = 0`, while the wrap
"modulo the capacity" the claim (and the code's own
`debug_assert_eq!(i, new_tail_pending as usize)`, whose slot walk ends at
index `(65534 + 2) % 65535 = 1`) requires is 1. -/
theorem push_tail_pending_overflow_bug :
    WF qOverflow ∧
    qOverflow.tail_pending = 65534 ∧
    ([[1], [2]] : List Bytes).length = 2 ∧
    push qOverflow [[1], [2]] = some (PushOutcome.success qOverflowPost) ∧
    qOverflowPost.tail_pending = 0 ∧
    (qOverflow.tail_pending + ([[1], [2]] : List Bytes).length) % capacity qOverflow = 1 := by
  refine ⟨qOverflow_wf, rfl, rfl, push_qOverflow_eval, rfl, ?_⟩
  rw [qOverflow_cap, show qOverflow.tail_pending = 65534 from rfl,
    show ([[1], [2]] : List Bytes).length = 2 from rfl]

/-- C5: on a well-formed state, `get_buffers` returns `None` exactly when
another session holds the scratch-descriptor lock or `len = 0`; otherwise
the returned session exposes exactly `len` descriptors (the whole scratch
window), the `i`-th being the buffer of slot `(head + i) % capacity`, in
ring order from `head`, and the window ends at the `tail_done` snapshot:
`(head + len) % capacity = tail`. -/
theorem get_buffers_spec (q : MpScBytesQueue) (locked : Bool) (hwf : WF q) :
    (get_buffers q locked = none ↔ (locked = true ∨ q.len = 0)) ∧
    (∀ b, get_buffers q locked = some b →
      b.io_slice_start = 0 ∧
      b.io_slice_end - b.io_slice_start = q.len ∧
      b.io_slices.length = q.len ∧
      get_io_slices b = b.io_slices ∧
      b.head = q.head ∧ b.tail = q.tail_done ∧
      (∀ i, i < q.len →
        b.io_slices.getD (b.io_slice_start + i) [] =
          q.bytes_queue.getD ((q.head + i) % capacity q) []) ∧
      (q.head + q.len) % capacity q = b.tail) := by
  refine ⟨get_buffers_none_iff q locked, ?_⟩
  intro b h
  obtain ⟨g1, g2, g3, g4, g5, g6, g7⟩ := get_buffers_some_spec q locked b hwf h
  refine ⟨g1, by omega, g5, ?_, g3, g4, ?_, by rw [g4]; exact g7⟩
  · unfold get_io_slices
    rw [g1, List.drop_zero, g2, ← g5, List.take_length]
  · intro i hi
    rw [g1, Nat.zero_add]
    exact g6 i hi

/-- Witness for C5 at the full capacity-2 queue `qPair`. -/
theorem get_buffers_spec_witness :
    WF qPair ∧ (get_buffers qPair false = none ↔ (false = true ∨ qPair.len = 0)) :=
  ⟨by decide, (get_buffers_spec qPair false (by decide)).1⟩

/-- C6 counterexample: in the session `bEmptyDesc` over `qEmptyDesc` the
remaining descriptors are `[7]` and `[]` (total byte length 1), yet
`advance` with exactly that total returns `true`, retires only the first
slot, leaves one descriptor in the window and leaves `head` different from
the `tail_done` snapshot: with a trailing zero-length descriptor the `n == 0`
early exit fires before the window empties, so the claim as stated is
false. -/
theorem advance_empty_descriptor_cex :
    WF qEmptyDesc ∧ BWF qEmptyDesc bEmptyDesc ∧
    descTotal bEmptyDesc = 1 ∧
    (advance qEmptyDesc bEmptyDesc (descTotal bEmptyDesc)).2.2 = true ∧
    (advance qEmptyDesc bEmptyDesc (descTotal bEmptyDesc)).2.1.io_slice_start ≠
      bEmptyDesc.io_slice_end ∧
    (advance qEmptyDesc bEmptyDesc (descTotal bEmptyDesc)).1.head ≠ bEmptyDesc.tail := by
  refine ⟨by decide, by decide, rfl, rfl, by decide, by decide⟩

/-- C6 (amended: the last remaining descriptor is required to be nonempty,
which holds in particular whenever no zero-length buffer was pushed): on a
well-formed session, `advance n` with `n` equal to the exact total byte
length of the remaining descriptors retires every remaining slot — each
retired slot's buffer is reset to empty, `len` decreases and `free`
increases by the window size, the window is emptied — returns `false`, and
leaves `head` equal to the session's `tail_done` snapshot. -/
theorem advance_drain (q : MpScBytesQueue) (b : Buffers)
    (hwf : WF q) (hb : BWF q b)
    (hne : b.io_slice_start < b.io_slice_end)
    (hlast : 1 ≤ (b.io_slices.getD (b.io_slice_end - 1) []).length) :
    1 ≤ descTotal b ∧
    (advance q b (descTotal b)).2.2 = false ∧
    (advance q b (descTotal b)).1.head = b.tail ∧
    (advance q b (descTotal b)).1.len = q.len - (b.io_slice_end - b.io_slice_start) ∧
    (advance q b (descTotal b)).1.free = q.free + (b.io_slice_end - b.io_slice_start) ∧
    (advance q b (descTotal b)).2.1.io_slice_start = b.io_slice_end ∧
    (∀ i, i < b.io_slice_end - b.io_slice_start →
      (advance q b (descTotal b)).1.bytes_queue.getD ((b.head + i) % capacity q) [] = []) := by
  have h1 : 1 ≤ descTotal b := by
    have h2 := descTotalAux_last b.io_slices (b.io_slice_end - b.io_slice_start)
      b.io_slice_start (by omega)
    rw [show b.io_slice_start + (b.io_slice_end - b.io_slice_start) - 1 = b.io_slice_end - 1
      from by omega] at h2
    unfold descTotal
    omega
  obtain ⟨c1, c2, c3, c4, c5, c6, c7⟩ := advanceGo_drain
    (b.io_slice_end - b.io_slice_start) q b hwf hb rfl (by omega) hlast (descTotal b) rfl
  have hadv : advance q b (descTotal b) =
      advanceGo (b.io_slice_end - b.io_slice_start) q b (descTotal b) := by
    unfold advance
    rw [if_neg (by omega)]
  rw [hadv]
  exact ⟨h1, c1, c2, c3, c4, c5, c6⟩

/-- Witness for C6's amended theorem: fully draining the two-buffer session
`bPair` over `qPair` with its exact total of 2 bytes. -/
theorem advance_drain_witness :
    1 ≤ descTotal bPair ∧
    (advance qPair bPair (descTotal bPair)).2.2 = false ∧
    (advance qPair bPair (descTotal bPair)).1.head = bPair.tail ∧
    (advance qPair bPair (descTotal bPair)).1.len =
      qPair.len - (bPair.io_slice_end - bPair.io_slice_start) ∧
    (advance qPair bPair (descTotal bPair)).1.free =
      qPair.free + (bPair.io_slice_end - bPair.io_slice_start) ∧
    (advance qPair bPair (descTotal bPair)).2.1.io_slice_start = bPair.io_slice_end ∧
    (∀ i, i < bPair.io_slice_end - bPair.io_slice_start →
      (advance qPair bPair (descTotal bPair)).1.bytes_queue.getD
        ((bPair.head + i) % capacity qPair) [] = []) :=
  advance_drain qPair bPair (by decide) (by decide) (by decide) (by decide)

/-- C7: on a well-formed session whose first remaining descriptor is longer
than `n`, `advance n` trims that descriptor's buffer in place to drop the
consumed `n`-byte prefix (both the slot's buffer and the descriptor become
the dropped suffix), returns `true`, and retires nothing: `free`, `len`,
`head` and the size of the descriptor window are unchanged. -/
theorem advance_partial (q : MpScBytesQueue) (b : Buffers) (n : Nat)
    (hwf : WF q) (hb : BWF q b) (hn1 : 1 ≤ n)
    (hne : b.io_slice_start < b.io_slice_end)
    (hlt : n < (b.io_slices.getD b.io_slice_start []).length) :
    (advance q b n).2.2 = true ∧
    (advance q b n).1.free = q.free ∧
    (advance q b n).1.len = q.len ∧
    (advance q b n).1.head = q.head ∧
    (advance q b n).2.1.io_slice_end - (advance q b n).2.1.io_slice_start =
      b.io_slice_end - b.io_slice_start ∧
    (advance q b n).2.1.io_slices.getD b.io_slice_start [] =
      (b.io_slices.getD b.io_slice_start []).drop n ∧
    (advance q b n).1.bytes_queue.getD q.head [] =
      (q.bytes_queue.getD q.head []).drop n := by
  obtain ⟨k, hk⟩ : ∃ k, b.io_slice_end - b.io_slice_start = k + 1 :=
    ⟨b.io_slice_end - b.io_slice_start - 1, by omega⟩
  obtain ⟨t1, t2, t3, t4, t5, t6, t7, t8, t9⟩ := trimStep_spec q b n hwf hb hne
  obtain ⟨w1, w2, w3, w4, w5, w6, w7, w8, w9⟩ := hwf
  obtain ⟨b1, b2, b3, b4, b5, b6, b7, b8⟩ := hb
  have hdesc0 : b.io_slices.getD b.io_slice_start [] = q.bytes_queue.getD b.head [] := by
    have h0 := b8 0 (by omega)
    rw [Nat.add_zero, Nat.add_zero] at h0
    rw [h0]
    congr 1
    rw [b5]
    exact Nat.mod_eq_of_lt w3
  have hadv : advance q b n = ((trimStep q b n).1, (trimStep q b n).2, true) := by
    unfold advance
    rw [if_neg (by omega), hk]
    simp only [advanceGo]
    rw [if_neg (by omega)]
  rw [hadv]
  refine ⟨rfl, t3, t4, t5, by rw [t7, t6], ?_, ?_⟩
  · rw [hdesc0]
    exact t8
  · rw [← b5]
    exact t9

/-- Witness for C7: consuming 1 byte of the 3-byte descriptor in `bTrim`
over `qTrim`. -/
theorem advance_partial_witness :
    (advance qTrim bTrim 1).2.2 = true ∧
    (advance qTrim bTrim 1).1.free = qTrim.free ∧
    (advance qTrim bTrim 1).1.len = qTrim.len ∧
    (advance qTrim bTrim 1).1.head = qTrim.head ∧
    (advance qTrim bTrim 1).2.1.io_slice_end - (advance qTrim bTrim 1).2.1.io_slice_start =
      bTrim.io_slice_end - bTrim.io_slice_start ∧
    (advance qTrim bTrim 1).2.1.io_slices.getD bTrim.io_slice_start [] =
      (bTrim.io_slices.getD bTrim.io_slice_start []).drop 1 ∧
    (advance qTrim bTrim 1).1.bytes_queue.getD qTrim.head [] =
      (qTrim.bytes_queue.getD qTrim.head []).drop 1 :=
  advance_partial qTrim bTrim 1 (by decide) (by decide) (by decide) (by decide) (by decide)

end TokioIoUtility
